import Mathlib

/-!
Shallow embedding of the TodoMVC example (`examples/todomvc/src/main.rs`):
the `Filter` enum with its `fit` predicate, the `Entry` and `Model` structs
with their query/mutation methods, the `Msg` intent enum, and the `update`
reducer.  The view layer is out of scope except for `Model.filteredView`,
which embeds the enumeration `view_entries` uses to produce the indices it
dispatches in `Msg::Toggle`/`Msg::Remove`.

Fallible operations (Rust panics: `Vec::remove` out of bounds,
`Option::unwrap` in the Toggle handler) are embedded as `Option`, with
`none` marking the panic.
-/

set_option autoImplicit false

namespace TodoMvc

/-- The `Filter` enum: display/query filter mode. -/
inductive Filter where
  | All
  | Active
  | Completed
deriving DecidableEq

/-- The `Entry` struct: one to-do item. -/
structure Entry where
  description : String
  completed : Bool
deriving DecidableEq

/-- Embeds `Filter::fit`: classifies an entry against a filter mode. -/
def Filter.fit : Filter → Entry → Bool
  | Filter.All, _ => true
  | Filter.Active, entry => !entry.completed
  | Filter.Completed, entry => entry.completed

/-- The `Model` struct: entry list, current filter, draft input text
(the Rust field is called `value`). -/
structure Model where
  entries : List Entry
  filter : Filter
  value : String
deriving DecidableEq

/-- Embeds `Model::total`, that is `self.entries.len()`. -/
def Model.total (m : Model) : Nat :=
  m.entries.length

/-- Embeds `Model::total_completed`: count of entries fitting `Filter::Completed`. -/
def Model.total_completed (m : Model) : Nat :=
  (m.entries.filter (fun e => Filter.Completed.fit e)).length

/-- Embeds `Model::is_all_completed`: materializes the entries fitting the current
filter; an empty filtered list gives `false`, otherwise folds `&&` over the
`completed` flags. -/
def Model.is_all_completed (m : Model) : Bool :=
  let entries := m.entries.filter (fun e => m.filter.fit e)
  if entries.length = 0 then
    false
  else
    entries.foldl (fun status entry => status && entry.completed) true

/-- Embeds `Model::toggle_all`: sets `completed = value` on every entry fitting the
current filter, leaving the others unchanged. -/
def Model.toggle_all (m : Model) (value : Bool) : Model :=
  { m with entries := m.entries.map (fun entry =>
      if m.filter.fit entry then { entry with completed := value } else entry) }

/-- Embeds `Model::clear_completed`: retains exactly the entries fitting
`Filter::Active`. -/
def Model.clear_completed (m : Model) : Model :=
  { m with entries := m.entries.filter (fun e => Filter.Active.fit e) }

/-- The filtered view: the ordered subsequence of entries fitting the current
filter.  `view_entries` enumerates exactly this list, so the indices carried
by `Msg::Toggle`/`Msg::Remove` are positions in it. -/
def Model.filteredView (m : Model) : List Entry :=
  m.entries.filter (fun e => m.filter.fit e)

/-- The `Msg` intent enum dispatched by the view. -/
inductive Msg where
  | Add
  | Update (val : String)
  | Remove (idx : Nat)
  | SetFilter (filter : Filter)
  | ToggleAll
  | Toggle (idx : Nat)
  | ClearCompleted
  | Nope
deriving DecidableEq

/-- The `Msg::Toggle` handler body: collect the entries fitting `f` (as
mutable references into the underlying list), take the `idx`-th of them and
flip its `completed` flag in place.  `none` embeds the panic of
`get_mut(idx).unwrap()` when `idx` is out of the filtered range. -/
def toggleFiltered (f : Filter) : List Entry → Nat → Option (List Entry)
  | [], _ => none
  | e :: es, idx =>
    if f.fit e then
      match idx with
      | 0 => some ({ e with completed := !e.completed } :: es)
      | Nat.succ idx2 => (toggleFiltered f es idx2).map (fun es2 => e :: es2)
    else
      (toggleFiltered f es idx).map (fun es2 => e :: es2)

/-- The `update` reducer (`fn update(model: &mut Model, msg: Msg)`), with the
in-place mutation turned into state passing; `none` embeds a panic
(`Vec::remove` or `unwrap` on an out-of-range index). -/
def update (model : Model) : Msg → Option Model
  | Msg.Add =>
    some { model with
      entries := model.entries ++ [⟨model.value, false⟩],
      value := "" }
  | Msg.Update val => some { model with value := val }
  | Msg.Remove idx =>
    if idx < model.entries.length then
      some { model with entries := model.entries.eraseIdx idx }
    else
      none
  | Msg.SetFilter f => some { model with filter := f }
  | Msg.ToggleAll => some (model.toggle_all (!model.is_all_completed))
  | Msg.Toggle idx =>
    (toggleFiltered model.filter model.entries idx).map
      (fun es => { model with entries := es })
  | Msg.ClearCompleted => some model.clear_completed
  | Msg.Nope => some model

/-- Dispatching `Msg::Update d; Msg::Add` for each draft `d` in turn:
the intent sequence `[update_draft(d1); add(); ...; update_draft(dn); add()]`. -/
def addSeq : Model → List String → Option Model
  | m, [] => some m
  | m, d :: ds =>
    (update m (Msg.Update d)).bind (fun m1 =>
      (update m1 Msg.Add).bind (fun m2 => addSeq m2 ds))

/-! ### Helper lemmas -/

theorem foldl_and_completed (l : List Entry) (b : Bool) :
    l.foldl (fun status entry => status && entry.completed) b
      = (b && l.all (fun e => e.completed)) := by
  induction l generalizing b with
  | nil => simp
  | cons e es ih => simp [List.foldl_cons, ih, Bool.and_assoc]

/-- Characterization of `is_all_completed` through the filtered view. -/
theorem is_all_completed_spec (m : Model) :
    m.is_all_completed
      = (!m.filteredView.isEmpty && m.filteredView.all (fun e => e.completed)) := by
  unfold Model.is_all_completed Model.filteredView
  by_cases h : (m.entries.filter (fun e => m.filter.fit e)).length = 0
  · simp [h, List.isEmpty_iff, List.length_eq_zero.mp h]
  · simp only [h, if_false, foldl_and_completed, Bool.true_and]
    have : (m.entries.filter (fun e => m.filter.fit e)).isEmpty = false := by
      rcases hl : m.entries.filter (fun e => m.filter.fit e) with _ | ⟨a, l⟩
      · exact absurd (by rw [hl]; rfl) h
      · simp
    rw [this]
    simp

theorem all_const (l : List Entry) (v : Bool) :
    l.all (fun _ => v) = (l.isEmpty || v) := by
  induction l with
  | nil => simp
  | cons e es ih => cases v <;> simp [ih]

theorem all_completed_filter_active (A : List Entry) :
    (A.filter (fun e => !e.completed)).all (fun e => e.completed)
      = (A.filter (fun e => !e.completed)).isEmpty := by
  cases h : A.filter (fun e => !e.completed) with
  | nil => simp
  | cons e es =>
    have he : e ∈ A.filter (fun x => !x.completed) := by
      rw [h]; exact List.mem_cons_self _ _
    have hc : e.completed = false := by
      have := (List.mem_filter.mp he).2
      simpa using this
    simp [List.all_cons, hc]

theorem all_completed_filter_completed (A : List Entry) :
    (A.filter (fun e => e.completed)).all (fun e => e.completed) = true := by
  rw [List.all_eq_true]
  intro e he
  exact (List.mem_filter.mp he).2

/-- Under filter `All`, `toggleFiltered` applied twice at a valid index
restores the entry list. -/
theorem toggleFiltered_all_involutive (es : List Entry) (i : Nat)
    (h : i < es.length) :
    (toggleFiltered Filter.All es i).bind
        (fun es2 => toggleFiltered Filter.All es2 i)
      = some es := by
  induction es generalizing i with
  | nil => exact absurd h (by simp)
  | cons e es ih =>
    cases i with
    | zero =>
      obtain ⟨d, c⟩ := e
      cases c <;> simp [toggleFiltered, Filter.fit]
    | succ i =>
      have hi : i < es.length := Nat.lt_of_succ_lt_succ h
      have hih := ih i hi
      cases h1 : toggleFiltered Filter.All es i with
      | none => rw [h1] at hih; simp at hih
      | some es1 =>
        rw [h1] at hih
        simp only [Option.some_bind] at hih
        simp [toggleFiltered, Filter.fit, h1, hih]

theorem toggleFiltered_cons (f : Filter) (e : Entry) (es : List Entry)
    (idx : Nat) :
    toggleFiltered f (e :: es) idx
      = if f.fit e then
          match idx with
          | 0 => some ({ e with completed := !e.completed } :: es)
          | Nat.succ idx2 => (toggleFiltered f es idx2).map (fun es2 => e :: es2)
        else (toggleFiltered f es idx).map (fun es2 => e :: es2) := rfl

theorem toggleFiltered_cons_pos_zero {f : Filter} {e : Entry} (es : List Entry)
    (hfit : f.fit e = true) :
    toggleFiltered f (e :: es) 0
      = some ({ e with completed := !e.completed } :: es) := by
  rw [toggleFiltered_cons, if_pos hfit]

theorem toggleFiltered_cons_pos_succ {f : Filter} {e : Entry} (es : List Entry)
    (i : Nat) (hfit : f.fit e = true) :
    toggleFiltered f (e :: es) (i + 1)
      = (toggleFiltered f es i).map (fun es2 => e :: es2) := by
  rw [toggleFiltered_cons, if_pos hfit]

theorem toggleFiltered_cons_neg {f : Filter} {e : Entry} (es : List Entry)
    (i : Nat) (hfit : f.fit e = false) :
    toggleFiltered f (e :: es) i
      = (toggleFiltered f es i).map (fun es2 => e :: es2) := by
  rw [toggleFiltered_cons, if_neg (by simp [hfit])]

/-- Lemma: `toggleFiltered` fails (the `unwrap` panics) exactly when the index is
out of the bounds of the filtered subsequence. -/
theorem toggleFiltered_eq_none_iff (f : Filter) (es : List Entry) (i : Nat) :
    toggleFiltered f es i = none ↔ (es.filter (fun e => f.fit e)).length ≤ i := by
  induction es generalizing i with
  | nil => simp [toggleFiltered]
  | cons e es ih =>
    cases hfit : f.fit e with
    | true =>
      cases i with
      | zero =>
        rw [toggleFiltered_cons_pos_zero es hfit]
        simp [List.filter_cons, hfit]
      | succ i =>
        rw [toggleFiltered_cons_pos_succ es i hfit]
        simp [List.filter_cons, hfit, Option.map_eq_none', ih, Nat.succ_le_succ_iff]
    | false =>
      rw [toggleFiltered_cons_neg es i hfit]
      simp [List.filter_cons, hfit, Option.map_eq_none', ih]

/-- On success, `toggleFiltered` flips the `completed` flag of exactly one
underlying entry — one that fits the filter — and leaves the rest unchanged. -/
theorem toggleFiltered_eq_some_set (f : Filter) (es es2 : List Entry) (i : Nat)
    (h : toggleFiltered f es i = some es2) :
    ∃ j, ∃ hj : j < es.length,
      f.fit (es.get ⟨j, hj⟩) = true
        ∧ es2 = es.set j { es.get ⟨j, hj⟩ with
            completed := !(es.get ⟨j, hj⟩).completed } := by
  induction es generalizing i es2 with
  | nil => simp [toggleFiltered] at h
  | cons e es ih =>
    cases hfit : f.fit e with
    | true =>
      cases i with
      | zero =>
        rw [toggleFiltered_cons_pos_zero es hfit] at h
        injection h with h2
        exact ⟨0, Nat.succ_pos _, hfit, h2.symm⟩
      | succ i =>
        rw [toggleFiltered_cons_pos_succ es i hfit] at h
        cases h1 : toggleFiltered f es i with
        | none => rw [h1] at h; simp at h
        | some es1 =>
          rw [h1, Option.map_some'] at h
          injection h with h2
          subst h2
          obtain ⟨j, hj, hfj, hset⟩ := ih es1 i h1
          exact ⟨j + 1, Nat.succ_lt_succ hj, hfj, congrArg (fun l => e :: l) hset⟩
    | false =>
      rw [toggleFiltered_cons_neg es i hfit] at h
      cases h1 : toggleFiltered f es i with
      | none => rw [h1] at h; simp at h
      | some es1 =>
        rw [h1, Option.map_some'] at h
        injection h with h2
        subst h2
        obtain ⟨j, hj, hfj, hset⟩ := ih es1 i h1
        exact ⟨j + 1, Nat.succ_lt_succ hj, hfj, congrArg (fun l => e :: l) hset⟩

/-- The effect of the `update_draft(d); add()` intent pairs, for any starting
model. -/
theorem addSeq_spec (ds : List String) (m : Model) :
    addSeq m ds
      = some ⟨m.entries ++ ds.map (fun d => ⟨d, false⟩), m.filter,
          if ds.isEmpty then m.value else ""⟩ := by
  induction ds generalizing m with
  | nil => simp [addSeq]
  | cons d ds ih =>
    simp only [addSeq, update, Option.some_bind]
    rw [ih]
    simp [List.append_assoc]

theorem isEmpty_map (g : Entry → Entry) (A : List Entry) :
    (A.map g).isEmpty = A.isEmpty := by
  cases A <;> simp

theorem all_completed_map_setCompleted (A : List Entry) (v : Bool) :
    (A.map (fun e => { e with completed := v })).all (fun e => e.completed)
      = A.all (fun _ => v) := by
  induction A with
  | nil => rfl
  | cons e es ih => simp [ih]

/-- Under filter `All`, the model after `toggle_all v` answers
`is_all_completed` with "non-empty and `v`". -/
theorem is_all_completed_toggle_all_All (A : List Entry) (val : String)
    (v : Bool) :
    (Model.toggle_all ⟨A, Filter.All, val⟩ v).is_all_completed
      = (!A.isEmpty && A.all (fun _ => v)) := by
  have h1 : (Model.toggle_all ⟨A, Filter.All, val⟩ v).filteredView
      = A.map (fun e => { e with completed := v }) := by
    simp [Model.toggle_all, Model.filteredView, Filter.fit, List.filter_true]
  rw [is_all_completed_spec, h1, isEmpty_map, all_completed_map_setCompleted]

/-- Under filter `Active`, `toggle_all true` completes every active entry, so
the filtered view afterwards is empty. -/
theorem is_all_completed_toggle_all_Active (A : List Entry) (val : String) :
    (Model.toggle_all ⟨A, Filter.Active, val⟩ true).is_all_completed = false := by
  have hview : (Model.toggle_all ⟨A, Filter.Active, val⟩ true).filteredView = [] := by
    simp only [Model.toggle_all, Model.filteredView]
    rw [List.filter_eq_nil_iff]
    intro x hx
    rw [List.mem_map] at hx
    obtain ⟨a, _, rfl⟩ := hx
    cases hc : a.completed <;> simp [Filter.fit, hc]
  rw [is_all_completed_spec, hview]
  simp

/-! ### Claim theorems -/

/-- C10: dispatching `Msg::Nope` leaves the model completely unchanged. -/
theorem nope_leaves_model_unchanged (m : Model) : update m Msg.Nope = some m := rfl

/-- C6: the filter predicate `fit` is pure and total, with
`fit All e = true`, `fit Active e = true` iff `e.completed = false`, and
`fit Completed e = true` iff `e.completed = true`. -/
theorem fit_spec (e : Entry) :
    Filter.All.fit e = true
      ∧ (Filter.Active.fit e = true ↔ e.completed = false)
      ∧ (Filter.Completed.fit e = true ↔ e.completed = true) := by
  obtain ⟨d, c⟩ := e
  cases c <;> simp [Filter.fit]

/-- C1: with entries `[("a", completed), ("b", active)]` and filter `Active`,
the filtered view shows only `("b", active)` at filtered index 0, yet
`Msg::Remove 0` deletes `("a", completed)` — an entry not even displayed —
and keeps `("b", active)`: the handler resolves the index against the raw
entry list, not against the filtered view. -/
theorem remove_uses_storage_index :
    Model.filteredView ⟨[⟨"a", true⟩, ⟨"b", false⟩], Filter.Active, ""⟩
        = [⟨"b", false⟩]
      ∧ update ⟨[⟨"a", true⟩, ⟨"b", false⟩], Filter.Active, ""⟩ (Msg.Remove 0)
        = some ⟨[⟨"b", false⟩], Filter.Active, ""⟩ := by
  constructor <;> rfl

/-- C2 counterexample: with entries `[("a", completed)]` and filter `All` the
filtered subset is non-empty, yet after `Msg::ToggleAll` the query
`is_all_completed` returns `false` (the toggle target was
`!is_all_completed() = false`, so the entry became active). -/
theorem toggleAll_not_all_completed_after :
    Model.filteredView ⟨[⟨"a", true⟩], Filter.All, ""⟩ ≠ []
      ∧ update ⟨[⟨"a", true⟩], Filter.All, ""⟩ Msg.ToggleAll
        = some ⟨[⟨"a", false⟩], Filter.All, ""⟩
      ∧ Model.is_all_completed ⟨[⟨"a", false⟩], Filter.All, ""⟩ = false := by
  refine ⟨by simp [Model.filteredView, Filter.fit], by rfl, by rfl⟩

/-- C3 counterexample: entries `[("a", active), ("b", active)]`, filter
`Active`; filtered index 0 is valid before both toggles, yet `Toggle 0`
twice yields `[("a", completed), ("b", completed)]` — the first toggle
removes "a" from the filtered view, so the second targets "b"; nothing is
restored. -/
theorem toggle_twice_under_active_changes_entries :
    0 < (Model.filteredView ⟨[⟨"a", false⟩, ⟨"b", false⟩], Filter.Active, ""⟩).length
      ∧ update ⟨[⟨"a", false⟩, ⟨"b", false⟩], Filter.Active, ""⟩ (Msg.Toggle 0)
        = some ⟨[⟨"a", true⟩, ⟨"b", false⟩], Filter.Active, ""⟩
      ∧ 0 < (Model.filteredView ⟨[⟨"a", true⟩, ⟨"b", false⟩], Filter.Active, ""⟩).length
      ∧ update ⟨[⟨"a", true⟩, ⟨"b", false⟩], Filter.Active, ""⟩ (Msg.Toggle 0)
        = some ⟨[⟨"a", true⟩, ⟨"b", true⟩], Filter.Active, ""⟩
      ∧ (⟨[⟨"a", true⟩, ⟨"b", true⟩], Filter.Active, ""⟩ : Model)
        ≠ ⟨[⟨"a", false⟩, ⟨"b", false⟩], Filter.Active, ""⟩ := by
  refine ⟨by decide, by rfl, by decide, by rfl, by decide⟩

/-- C5 counterexample: two models identical except for the filter produce
different entry lists under the same `Msg::Toggle 0` intent, so the filter
does affect what is stored, not only what queries return. -/
theorem toggle_result_depends_on_filter :
    update ⟨[⟨"a", false⟩, ⟨"b", true⟩], Filter.All, ""⟩ (Msg.Toggle 0)
        = some ⟨[⟨"a", true⟩, ⟨"b", true⟩], Filter.All, ""⟩
      ∧ update ⟨[⟨"a", false⟩, ⟨"b", true⟩], Filter.Completed, ""⟩ (Msg.Toggle 0)
        = some ⟨[⟨"a", false⟩, ⟨"b", false⟩], Filter.Completed, ""⟩
      ∧ ([⟨"a", true⟩, ⟨"b", true⟩] : List Entry) ≠ [⟨"a", false⟩, ⟨"b", false⟩] := by
  refine ⟨by rfl, by rfl, by decide⟩

/-- C5 (amended): `Msg::SetFilter` changes only the `filter` field, leaving
`entries` and the draft `value` unchanged. -/
theorem set_filter_only_changes_filter (m : Model) (f : Filter) :
    update m (Msg.SetFilter f) = some ⟨m.entries, f, m.value⟩ := rfl

/-- C4: `is_all_completed` is `true` iff the filtered view is non-empty and
every entry in it is completed; in particular an empty filtered view gives
`false`. -/
theorem is_all_completed_iff (m : Model) :
    m.is_all_completed = true
      ↔ m.filteredView ≠ [] ∧ ∀ e ∈ m.filteredView, e.completed = true := by
  rw [is_all_completed_spec]
  simp [List.isEmpty_iff, List.all_eq_true]

/-- C8: `clear_completed` retains exactly the entries fitting `Active`
(removing exactly the completed ones, order preserved), and is idempotent. -/
theorem clear_completed_spec_and_idempotent (m : Model) :
    update m Msg.ClearCompleted
        = some { m with entries := m.entries.filter (fun e => Filter.Active.fit e) }
      ∧ m.clear_completed.clear_completed = m.clear_completed := by
  refine ⟨rfl, ?_⟩
  simp [Model.clear_completed, List.filter_filter]

/-- C2 (amended): after dispatching `Msg::ToggleAll`, `is_all_completed`
under the same filter is `true` exactly when the filter is `All`, the entry
list is non-empty, and not every entry was already completed; in every other
case — including a non-empty filtered subset under `Active` or `Completed`,
and an all-completed list under `All` — it is `false`. -/
theorem is_all_completed_after_toggleAll (m : Model) :
    update m Msg.ToggleAll = some (m.toggle_all (!m.is_all_completed))
      ∧ (m.toggle_all (!m.is_all_completed)).is_all_completed
        = (decide (m.filter = Filter.All) && !m.entries.isEmpty
            && !m.entries.all (fun e => e.completed)) := by
  refine ⟨rfl, ?_⟩
  obtain ⟨A, f, val⟩ := m
  cases f with
  | All =>
    have h1 : (Model.mk A Filter.All val).is_all_completed
        = (!A.isEmpty && A.all (fun e => e.completed)) := by
      rw [is_all_completed_spec]
      simp [Model.filteredView, Filter.fit, List.filter_true]
    rw [is_all_completed_toggle_all_All, all_const, h1]
    cases hE : A.isEmpty <;> cases hC : A.all (fun e => e.completed) <;>
      simp [hE, hC]
  | Active =>
    have hv : (Model.mk A Filter.Active val).is_all_completed = false := by
      rw [is_all_completed_spec]
      simp only [Model.filteredView, Filter.fit]
      rw [all_completed_filter_active]
      cases hE : (A.filter (fun e => !e.completed)).isEmpty <;> simp [hE]
    rw [hv]
    simp only [Bool.not_false]
    rw [is_all_completed_toggle_all_Active]
    simp
  | Completed =>
    have hv : (Model.mk A Filter.Completed val).is_all_completed
        = !(A.filter (fun e => e.completed)).isEmpty := by
      rw [is_all_completed_spec]
      simp only [Model.filteredView, Filter.fit]
      rw [all_completed_filter_completed]
      simp
    have hview : (Model.toggle_all ⟨A, Filter.Completed, val⟩
        ((A.filter (fun e => e.completed)).isEmpty)).filteredView = [] := by
      simp only [Model.toggle_all, Model.filteredView]
      rw [List.filter_eq_nil_iff]
      intro x hx
      rw [List.mem_map] at hx
      obtain ⟨a, ha, rfl⟩ := hx
      cases hE : (A.filter (fun e => e.completed)).isEmpty with
      | true =>
        have hnil : A.filter (fun e => e.completed) = [] :=
          List.isEmpty_iff.mp hE
        have hna : a.completed = false := by
          cases hc : a.completed
          · rfl
          · exfalso
            have hmem : a ∈ A.filter (fun e => e.completed) :=
              List.mem_filter.mpr ⟨ha, hc⟩
            rw [hnil] at hmem
            simp at hmem
        simp [Filter.fit, hna]
      | false =>
        cases hc : a.completed <;> simp [Filter.fit, hc, hE]
    rw [hv]
    simp only [Bool.not_not]
    rw [is_all_completed_spec, hview]
    simp

/-- C3 (amended): under filter `All` (where the filtered view is the whole
entry list and is stable under toggling), dispatching `Msg::Toggle i` twice
at a valid index restores the model exactly. -/
theorem toggle_twice_under_all_restores (m : Model) (i : Nat)
    (hf : m.filter = Filter.All) (hi : i < m.filteredView.length) :
    (update m (Msg.Toggle i)).bind (fun m1 => update m1 (Msg.Toggle i))
      = some m := by
  obtain ⟨A, f, val⟩ := m
  have hf2 : f = Filter.All := hf
  subst hf2
  have hA : Model.filteredView ⟨A, Filter.All, val⟩ = A := by
    simp [Model.filteredView, Filter.fit, List.filter_true]
  rw [hA] at hi
  have hcomp := toggleFiltered_all_involutive A i hi
  cases h1 : toggleFiltered Filter.All A i with
  | none => rw [h1] at hcomp; simp at hcomp
  | some es1 =>
    rw [h1] at hcomp
    simp only [Option.some_bind] at hcomp
    show ((toggleFiltered Filter.All A i).map
        (fun es => Model.mk es Filter.All val)).bind
        (fun m1 => update m1 (Msg.Toggle i)) = some ⟨A, Filter.All, val⟩
    rw [h1]
    simp only [Option.map_some', Option.some_bind]
    show (toggleFiltered Filter.All es1 i).map
        (fun es => Model.mk es Filter.All val) = some ⟨A, Filter.All, val⟩
    rw [hcomp]
    rfl

/-- C3 witness: a concrete run of the amended round-trip under filter
`All`. -/
theorem toggle_twice_under_all_restores_witness :
    (Model.mk [⟨"a", false⟩] Filter.All "").filter = Filter.All
      ∧ 0 < (Model.mk [⟨"a", false⟩] Filter.All "").filteredView.length
      ∧ (update ⟨[⟨"a", false⟩], Filter.All, ""⟩ (Msg.Toggle 0)).bind
          (fun m1 => update m1 (Msg.Toggle 0))
        = some ⟨[⟨"a", false⟩], Filter.All, ""⟩ :=
  ⟨rfl, by decide,
    toggle_twice_under_all_restores ⟨[⟨"a", false⟩], Filter.All, ""⟩ 0 rfl
      (by decide)⟩

/-- C7: `Msg::Toggle i` panics (embedded as `none`) exactly when `i` is out
of the bounds of the current filtered view; on success, the filter and draft
are unchanged and exactly one underlying entry — one fitting the current
filter — has its `completed` flag flipped, all other entries unchanged. -/
theorem toggle_index_error_iff (m : Model) (i : Nat) :
    (update m (Msg.Toggle i) = none ↔ m.filteredView.length ≤ i)
      ∧ ∀ m1, update m (Msg.Toggle i) = some m1 →
          m1.filter = m.filter ∧ m1.value = m.value
            ∧ ∃ j, ∃ hj : j < m.entries.length,
                m.filter.fit (m.entries.get ⟨j, hj⟩) = true
                  ∧ m1.entries = m.entries.set j
                      { m.entries.get ⟨j, hj⟩ with
                        completed := !(m.entries.get ⟨j, hj⟩).completed } := by
  have hstep : ∀ j, update m (Msg.Toggle j)
      = (toggleFiltered m.filter m.entries j).map
          (fun es => Model.mk es m.filter m.value) := fun _ => rfl
  constructor
  · rw [hstep, Option.map_eq_none', toggleFiltered_eq_none_iff]
    exact Iff.rfl
  · intro m1 h
    rw [hstep, Option.map_eq_some'] at h
    obtain ⟨es1, h1, rfl⟩ := h
    exact ⟨rfl, rfl, toggleFiltered_eq_some_set m.filter m.entries es1 i h1⟩

/-- C7 witness: at a concrete out-of-range index the Toggle intent is
detected as an error. -/
theorem toggle_index_error_iff_witness :
    update ⟨[⟨"a", false⟩], Filter.All, ""⟩ (Msg.Toggle 1) = none :=
  (toggle_index_error_iff ⟨[⟨"a", false⟩], Filter.All, ""⟩ 1).1.mpr (by decide)

/-- C9: starting from a model with no entries, the intent sequence
`update_draft(d1); add(); ...; update_draft(dn); add()` succeeds, the
resulting entries carry descriptions `d1..dn` in call order each with
`completed = false`, `total()` equals `n`, and when at least one `add` ran
the draft has been reset to the empty string. -/
theorem add_sequence_spec (m : Model) (ds : List String)
    (h : m.entries = []) :
    addSeq m ds
      = some ⟨ds.map (fun d => Entry.mk d false), m.filter,
          if ds.isEmpty then m.value else ""⟩
      ∧ (Model.mk (ds.map (fun d => Entry.mk d false)) m.filter
          (if ds.isEmpty then m.value else "")).total = ds.length := by
  constructor
  · rw [addSeq_spec, h]
    simp
  · simp [Model.total]

/-- C9 witness: the spec scenario — draft "clean desk", one add. -/
theorem add_sequence_spec_witness :
    (Model.mk [] Filter.All "x").entries = []
      ∧ (addSeq ⟨[], Filter.All, "x"⟩ ["clean desk"]
          = some ⟨["clean desk"].map (fun d => Entry.mk d false), Filter.All,
              if (["clean desk"] : List String).isEmpty then "x" else ""⟩
        ∧ (Model.mk (["clean desk"].map (fun d => Entry.mk d false)) Filter.All
            (if (["clean desk"] : List String).isEmpty then "x" else "")).total
          = (["clean desk"] : List String).length) :=
  ⟨rfl, add_sequence_spec ⟨[], Filter.All, "x"⟩ ["clean desk"] rfl⟩

end TodoMvc
